import Mathlib

/-!
Verification of the SLADE archive-format engine's two exemplar codecs.

Exemplar A is BSPArchive (Quake 1 BSP texture directory), exemplar B is
LfdArchive (Dark Forces LFD resource map); both live in
src/src/Archive/Formats/BSPArchive.cpp.  A byte source (the MemChunk the C++
works on) is a list of natural numbers, each intended to be a byte value;
32-bit C arithmetic is modelled with explicit reductions modulo 4294967296
exactly where the source computes in uint32_t, and untruncated naturals where
the source computes in size_t.  The host is modelled little-endian, so the
wxINT32_SWAP_ON_BE calls are the identity.

MemChunk, StrUtil::Path and ArchiveEntry are collaborators whose sources are
not part of this repository snapshot; their behaviour is modelled from the
specification's Byte Source / Entry contracts (see the doc comments on the
individual definitions).  An execution in which the source code would consume
an indeterminate value (a typed read that runs past the end of the source
fails and leaves its destination unwritten) is mapped to the result none.
-/

set_option maxRecDepth 100000

/-- Byte at index i of a byte source (0 past the end; every use below is
guarded by the source's own bounds checks, so the default never reaches a
defined execution's result). -/
def byteAt (mc : List Nat) (i : Nat) : Nat := mc.getD i 0

/-- The n bytes starting at index i (fewer if the source ends first). -/
def bytesAt (mc : List Nat) (i n : Nat) : List Nat := (mc.drop i).take n

/-- Little-endian 32-bit read at index i. -/
def readU32 (mc : List Nat) (i : Nat) : Nat :=
  byteAt mc i + 256 * byteAt mc (i + 1) + 65536 * byteAt mc (i + 2) +
    16777216 * byteAt mc (i + 3)

/-- Little-endian 32-bit write: the low four bytes of v, i.e. v mod 2^32. -/
def w32 (v : Nat) : List Nat :=
  [v % 256, v / 256 % 256, v / 65536 % 256, v / 16777216 % 256]

/-- A C string captured from a fixed-width field: the bytes before the first
NUL. -/
def cString (bs : List Nat) : List Nat := bs.takeWhile (fun b => b ≠ 0)

/-- A fixed-width field as the codecs write it: the value truncated to w bytes
and zero-padded to exactly w bytes (the C code copies into a zeroed buffer and
writes w bytes of it). -/
def padField (w : Nat) (s : List Nat) : List Nat :=
  s.take w ++ List.replicate (w - (s.take w).length) 0

/-- Modelled from the spec: ArchiveEntry is not under src/.  Per the spec's
Entry data model it carries a name, a declared size, the source offset kept in
the "Offset" extra property, the loaded payload bytes and a dirty state
(0 = unmodified). -/
structure Entry where
  name : List Nat
  size : Nat
  offset : Nat
  data : List Nat
  state : Nat
deriving DecidableEq, Repr

/-- The archive state the open functions mutate: the root directory's entry
list, the muted-notification flag and the modified flag.  open is always run
on a fresh archive: no entries, unmuted, unmodified. -/
structure ArchState where
  entries : List Entry
  muted : Bool
  modified : Bool
deriving DecidableEq, Repr

/-- Modelled from the spec: StrUtil::Path is not under src/.  Encode derives
"type/name ... by splitting the Entry's name into base+extension"; the split
is at the last dot (byte 46), and a name without a dot has an empty
extension.  extOf gives the extension part. -/
def extOf (nm : List Nat) : List Nat :=
  if 46 ∈ nm then (nm.reverse.takeWhile (fun b => b ≠ 46)).reverse else []

/-- Modelled from the spec: the base part of the split (everything before the
last dot), see extOf. -/
def baseOf (nm : List Nat) : List Nat :=
  if 46 ∈ nm then nm.take (nm.length - (extOf nm).length - 1) else nm

/-- Modelled from the spec: decode constructs "an Entry named name with its
extension set from type".  Setting the extension replaces the name's existing
extension part (appends one when the name has none, removes it when the new
extension is empty). -/
def setExtName (nm ty : List Nat) : List Nat :=
  if ty = [] then baseOf nm else baseOf nm ++ 46 :: ty

/-- The entry-type detection pass both open functions run on success (lines
236-263 and 690-718 of the source): for each entry of nonzero size the
declared range is exported from the source into the shared edata chunk — per
the spec's Byte Source contract, exportRange rejects a range whose end exceeds
the size and then leaves edata untouched — and imported as the entry's
payload; every entry's state is reset to 0.  EntryType::detectEntryType and
the archive_load_data-controlled unloadData only set the opaque detected type
or release cached bytes and do not affect the fields modelled here. -/
def detectGo (mc : List Nat) : List Nat → List Entry → List Entry
  | _, [] => []
  | edata, e :: es =>
    if 0 < e.size then
      let ed := if e.offset + e.size ≤ mc.length then bytesAt mc e.offset e.size else edata
      { e with data := ed, state := 0 } :: detectGo mc ed es
    else
      { e with state := 0 } :: detectGo mc edata es

/-- The detection pass starting from an empty edata chunk. -/
def detectPass (mc : List Nat) (es : List Entry) : List Entry := detectGo mc [] es

/-- The record-walking loop of LfdArchive::open (lines 639-685).  cursor is
the MemChunk read position — the first header is read right where the cursor
stands after the directory-length field, every later one at the tracked
payload offset — and offset tracks the payload position (the entry's Offset is
set after the 16-byte header is skipped, the bounds check compares
offset + length against the size).  none models an execution the source
leaves indeterminate: a 16-byte header read that runs past the end of the
source fails and the loop would then use unwritten locals.  Fuel exhaustion
(unreachable from lfdOpen, which supplies more fuel than the loop can consume)
is mapped to none as well. -/
def lfdLoop (mc : List Nat) : Nat → Nat → Nat → List Entry → Option (Bool × List Entry)
  | 0, _, offset, acc => if mc.length ≤ offset then some (true, acc) else none
  | fuel + 1, cursor, offset, acc =>
    if mc.length ≤ offset then some (true, acc)
    else if mc.length < cursor + 16 then none
    else
      let ty := cString (bytesAt mc cursor 4)
      let nm := cString (bytesAt mc (cursor + 4) 8)
      let len := readU32 mc (cursor + 12)
      if mc.length < offset + 16 + len then some (false, acc)
      else
        lfdLoop mc fuel (offset + 16 + len) (offset + 16 + len)
          (acc ++ [⟨setExtName nm ty, len, offset + 16, [], 0⟩])

/-- LfdArchive::open on a fresh archive (lines 605-728): empty-source and
minimum-size checks, the RMAP magic, the directory length read at offset 12
(must not exceed the size and must be a multiple of 16), then the record walk
with announcements muted.  On a walk failure the muted flag is restored to
false before returning failure, with the entries added so far still in the
tree; on success the detection pass runs, the archive is marked unmodified and
unmuted. -/
def lfdOpen (mc : List Nat) : Option (Bool × ArchState) :=
  if mc.length = 0 then some (false, ⟨[], false, false⟩)
  else if mc.length < 16 then some (false, ⟨[], false, false⟩)
  else if ¬(byteAt mc 0 = 82 ∧ byteAt mc 1 = 77 ∧ byteAt mc 2 = 65 ∧ byteAt mc 3 = 80) then
    some (false, ⟨[], false, false⟩)
  else
    let dirLen := readU32 mc 12
    if mc.length < dirLen ∨ dirLen % 16 ≠ 0 then some (false, ⟨[], false, false⟩)
    else
      match lfdLoop mc (mc.length + 1) 16 (dirLen + 16) [] with
      | none => none
      | some (false, acc) => some (false, ⟨acc, false, false⟩)
      | some (true, acc) => some (true, ⟨detectPass mc acc, false, false⟩)

/-- Just the success flag of lfdOpen. -/
def lfdOpenOk (mc : List Nat) : Option Bool := (lfdOpen mc).map (fun r => r.1)

/-- Just the resulting entry list of lfdOpen. -/
def lfdOpenEntries (mc : List Nat) : Option (List Entry) :=
  (lfdOpen mc).map (fun r => r.2.entries)

/-- A 16-byte LFD record: 4-byte type field, 8-byte name field, 32-bit
length, the fixed-width fields zero-padded/truncated as the write code's
buffers are. -/
def record16 (ty nm : List Nat) (len : Nat) : List Nat :=
  padField 4 ty ++ padField 8 nm ++ w32 len

/-- The header LfdArchive::write emits for one entry, in both the directory
and the payload region: type and name derived by splitting the entry's name,
then the entry's size. -/
def entryRecord (e : Entry) : List Nat := record16 (extOf e.name) (baseOf e.name) e.size

/-- LfdArchive::write (lines 734-813): the synthetic leading record (type
RMAP, name resource, length = entryCount*16), one 16-byte record per entry,
then per entry its 16-byte record again followed by its payload bytes. -/
def lfdWrite (es : List Entry) : List Nat :=
  record16 [82, 77, 65, 80] [114, 101, 115, 111, 117, 114, 99, 101] (16 * es.length)
    ++ (es.map entryRecord).flatten
    ++ (es.map (fun e => entryRecord e ++ e.data)).flatten

/-- The 15-slot directory validation loop shared verbatim by BSPArchive::open
(lines 107-134) and the MemChunk isBSPArchive (lines 324-343): per slot the
offset and length are read and their uint32_t sum — wrapping modulo 2^32, as
in the source arithmetic — is compared against the size; slot 2's offset is
recorded as the texture directory base and its length must be nonzero.
some none = validation failed, some (some t) = passed with texture base t,
none = a slot read ran past the end of the source (size 64 admits only the
first seven full slots, so this is reachable). -/
def bspSlots (mc : List Nat) : Nat → Nat → Nat → Option (Option Nat)
  | 0, _, t => some (some t)
  | r + 1, a, t =>
    if mc.length < 4 + 8 * a + 8 then none
    else
      let ofs := readU32 mc (4 + 8 * a)
      let sz := readU32 mc (8 + 8 * a)
      if mc.length < (sz + ofs) % 4294967296 then some none
      else if a = 2 then
        if sz = 0 then some none else bspSlots mc r (a + 1) ofs
      else bspSlots mc r (a + 1) t

/-- The texture loop of BSPArchive::open (lines 152-233), t = texture
directory base: read one table offset per iteration; an all-bits-set offset is
skipped without any check; otherwise the 40-byte sub-header must fit (compared
in untruncated size_t arithmetic), the name is read NUL-cleaned, width and
height must be nonzero multiples of 8, and each of the four mip offsets plus
its block size — the product width*height computed in wrapping uint32_t — must
stay within the size.  A valid texture appends one entry named from the
cleaned name, sized 40 plus the four block sizes (uint32_t), with Offset =
base.  Any check failure aborts with the entries accumulated so far. -/
def bspTexLoopOpen (mc : List Nat) (t : Nat) : Nat → Nat → List Entry → Option (Bool × List Entry)
  | 0, _, acc => some (true, acc)
  | r + 1, cursor, acc =>
    if mc.length < cursor + 4 then none
    else
      let off := readU32 mc cursor
      if off = 4294967295 then bspTexLoopOpen mc t r (cursor + 4) acc
      else if mc.length < off + t + 40 then some (false, acc)
      else
        let base := t + off
        let nm := cString (bytesAt mc base 16)
        let w := readU32 mc (base + 16)
        let h := readU32 mc (base + 20)
        let o1 := readU32 mc (base + 24)
        let o2 := readU32 mc (base + 28)
        let o4 := readU32 mc (base + 32)
        let o8 := readU32 mc (base + 36)
        if w % 8 ≠ 0 ∨ h % 8 ≠ 0 ∨ w = 0 ∨ h = 0 then some (false, acc)
        else
          let tsz := w * h % 4294967296
          if mc.length < base + o1 + tsz then some (false, acc)
          else if mc.length < base + o2 + tsz / 4 then some (false, acc)
          else if mc.length < base + o4 + tsz / 16 then some (false, acc)
          else if mc.length < base + o8 + tsz / 64 then some (false, acc)
          else
            bspTexLoopOpen mc t r (cursor + 4)
              (acc ++ [⟨nm, (40 + tsz + tsz / 4 + tsz / 16 + tsz / 64) % 4294967296, base, [], 0⟩])

/-- The texture loop of the MemChunk isBSPArchive (lines 356-410).  Identical
to the open loop except that no entries are built and the 40-byte sub-header
bounds check runs before the sentinel test (lines 364-367), so an all-bits-set
offset is rejected here rather than skipped. -/
def bspTexLoopProbe (mc : List Nat) (t : Nat) : Nat → Nat → Option Bool
  | 0, _ => some true
  | r + 1, cursor =>
    if mc.length < cursor + 4 then none
    else
      let off := readU32 mc cursor
      if mc.length < off + t + 40 then some false
      else if off = 4294967295 then bspTexLoopProbe mc t r (cursor + 4)
      else
        let base := t + off
        let w := readU32 mc (base + 16)
        let h := readU32 mc (base + 20)
        let o1 := readU32 mc (base + 24)
        let o2 := readU32 mc (base + 28)
        let o4 := readU32 mc (base + 32)
        let o8 := readU32 mc (base + 36)
        if w % 8 ≠ 0 ∨ h % 8 ≠ 0 ∨ w = 0 ∨ h = 0 then some false
        else
          let tsz := w * h % 4294967296
          if mc.length < base + o1 + tsz then some false
          else if mc.length < base + o2 + tsz / 4 then some false
          else if mc.length < base + o4 + tsz / 16 then some false
          else if mc.length < base + o8 + tsz / 64 then some false
          else bspTexLoopProbe mc t r (cursor + 4)

/-- BSPArchive::open on a fresh archive (lines 77-273): minimum size 64, the
version tag must be 0x17 or 0x1D, then — with announcements muted — the 15
slots are validated, the texture count is read at the directory base (a seek
or read past the end is indeterminate, hence none), the offset table bound
texoffset + (numtex+1)*4 is checked in wrapping uint32_t arithmetic, and the
texture loop runs.  No failure path after the version check unmutes the
archive; success runs the detection pass and clears muted and modified. -/
def bspOpen (mc : List Nat) : Option (Bool × ArchState) :=
  if mc.length < 64 then some (false, ⟨[], false, false⟩)
  else if readU32 mc 0 ≠ 23 ∧ readU32 mc 0 ≠ 29 then some (false, ⟨[], false, false⟩)
  else
    match bspSlots mc 15 0 0 with
    | none => none
    | some none => some (false, ⟨[], true, false⟩)
    | some (some t) =>
      if mc.length < t then none
      else if mc.length < t + 4 then none
      else
        let numtex := readU32 mc t
        if mc.length < (t + (numtex + 1) * 4 % 4294967296) % 4294967296 then
          some (false, ⟨[], true, false⟩)
        else
          match bspTexLoopOpen mc t numtex (t + 4) [] with
          | none => none
          | some (false, acc) => some (false, ⟨acc, true, false⟩)
          | some (true, acc) => some (true, ⟨detectPass mc acc, false, false⟩)

/-- Just the success flag of bspOpen. -/
def bspOpenOk (mc : List Nat) : Option Bool := (bspOpen mc).map (fun r => r.1)

/-- The MemChunk isBSPArchive (lines 305-414): the validation-only signature
probe, running the same size, version, slot, texture-count and texture checks
as open but building no entries, with the probe's texture loop. -/
def isBSPArchive (mc : List Nat) : Option Bool :=
  if mc.length < 64 then some false
  else if readU32 mc 0 ≠ 23 ∧ readU32 mc 0 ≠ 29 then some false
  else
    match bspSlots mc 15 0 0 with
    | none => none
    | some none => some false
    | some (some t) =>
      if mc.length < t then none
      else if mc.length < t + 4 then none
      else
        let numtex := readU32 mc t
        if mc.length < (t + (numtex + 1) * 4 % 4294967296) % 4294967296 then some false
        else bspTexLoopProbe mc t numtex (t + 4)

/-- Shorthand for runs of zero bytes in the concrete sources below. -/
def zeros (n : Nat) : List Nat := List.replicate n 0

/-- Concrete scenario 2's source: magic RMAP, directory length 16, total size
exactly 16. -/
def c7bytes : List Nat := [82, 77, 65, 80] ++ zeros 8 ++ w32 16

/-- Scenario-3-shaped source: two declared directory records, the first record
(length 0) walks fine, the second record's declared length 1000 overruns the
80-byte source. -/
def c1bytes : List Nat :=
  [82, 77, 65, 80] ++ zeros 8 ++ w32 32
    ++ record16 [65] [78, 49] 0
    ++ zeros 16
    ++ zeros 16
    ++ record16 [66] [78, 50] 1000

/-- Concrete scenario 1's source, padded to 128 bytes so that every header
read is in bounds: version 0x1D, slot 2 = (offset 64, length 8), texture
count 0 stored at offset 64 (the zero bytes there double as slot 7's fields,
which pass validation). -/
def c5bytes : List Nat :=
  w32 29 ++ zeros 16 ++ w32 64 ++ w32 8 ++ zeros 100

/-- A variant whose slot 2 declares length 0: the only "no content" rejection
the decoder has. -/
def c5zbytes : List Nat :=
  w32 29 ++ zeros 16 ++ w32 64 ++ w32 0 ++ zeros 36

/-- A source whose slot 5 declares offset 0xFFFFFFFF and length 1: the true
sum 2^32 exceeds the 128-byte size, but the 32-bit sum wraps to 0 and the slot
passes validation. -/
def c4bytes : List Nat :=
  w32 29 ++ zeros 16 ++ w32 124 ++ w32 4 ++ zeros 16 ++ w32 4294967295 ++ w32 1
    ++ zeros 72 ++ w32 0

/-- A fully valid one-texture BSP source: texture count 1 at offset 124, table
offset 12, sub-header at 136 named TEX with width = height = 8 and the four
mip blocks (64, 16, 4, 1 bytes) packed to end exactly at size 261. -/
def c6bytes : List Nat :=
  w32 29 ++ zeros 16 ++ w32 124 ++ w32 137 ++ zeros 96
    ++ w32 1 ++ w32 12 ++ zeros 4
    ++ [84, 69, 88] ++ zeros 13
    ++ w32 8 ++ w32 8 ++ w32 40 ++ w32 104 ++ w32 120 ++ w32 124
    ++ zeros 85

/-- A BSP source whose single texture-table offset is the all-bits-set
sentinel: open skips it and succeeds with no entries, the probe's bounds check
(which runs before its sentinel test) rejects it. -/
def c8bytes : List Nat :=
  w32 29 ++ zeros 16 ++ w32 124 ++ w32 8 ++ zeros 96 ++ w32 1 ++ w32 4294967295

/-- A valid one-record LFD source: name AB, type C, two payload bytes. -/
def c2wbytes : List Nat :=
  [82, 77, 65, 80] ++ zeros 8 ++ w32 16
    ++ record16 [67] [65, 66] 2
    ++ record16 [67] [65, 66] 2
    ++ [7, 8]

/-- A valid one-record LFD source whose type field contains a dot (T.U) and
whose name field is a full 8 characters: the decoded entry name
ABCDEFGH.T.U re-splits into a 10-character base that the 8-byte name field
truncates on re-encode. -/
def c2cbytes : List Nat :=
  [82, 77, 65, 80] ++ zeros 8 ++ w32 16
    ++ record16 [84, 46, 85] [65, 66, 67, 68, 69, 70, 71, 72] 0
    ++ record16 [84, 46, 85] [65, 66, 67, 68, 69, 70, 71, 72] 0

/-- The compare-up-to-offsets view of an entry: name, size, payload. -/
def sig (e : Entry) : List Nat × Nat × List Nat := (e.name, e.size, e.data)

/-- The validation facts BSPArchive::open establishes for every texture it
turns into an entry: the 40-byte sub-header is in bounds, width and height
(read back at the entry's recorded offset) are nonzero multiples of 8, and the
first mip block — offset plus the 32-bit-wrapped product width*height — is in
bounds. -/
def TexOk (mc : List Nat) (offset : Nat) : Prop :=
  offset + 40 ≤ mc.length ∧
  readU32 mc (offset + 16) % 8 = 0 ∧ readU32 mc (offset + 20) % 8 = 0 ∧
  readU32 mc (offset + 16) ≠ 0 ∧ readU32 mc (offset + 20) ≠ 0 ∧
  offset + readU32 mc (offset + 24) +
    readU32 mc (offset + 16) * readU32 mc (offset + 20) % 4294967296 ≤ mc.length

/-- The single entry the failed c1bytes decode leaves behind. -/
def c1entry : Entry := ⟨[78, 49, 46, 65], 0, 64, [], 0⟩

/-- The entry the successful c6bytes decode produces. -/
def c6entry : Entry := ⟨[84, 69, 88], 125, 136, bytesAt c6bytes 136 125, 0⟩

/-! ### Helper lemmas about the byte-level primitives -/

lemma byteAt_append_right (a b : List Nat) (k : Nat) :
    byteAt (a ++ b) (a.length + k) = byteAt b k := by
  simp [byteAt, List.getD_eq_getElem?_getD,
    List.getElem?_append_right (Nat.le_add_right a.length k)]

lemma readU32_append_right (a b : List Nat) (k : Nat) :
    readU32 (a ++ b) (a.length + k) = readU32 b k := by
  unfold readU32
  rw [show a.length + k + 1 = a.length + (k + 1) by omega,
    show a.length + k + 2 = a.length + (k + 2) by omega,
    show a.length + k + 3 = a.length + (k + 3) by omega,
    byteAt_append_right, byteAt_append_right, byteAt_append_right, byteAt_append_right]

lemma bytesAt_append_right (a b : List Nat) (k n : Nat) :
    bytesAt (a ++ b) (a.length + k) n = bytesAt b k n := by
  unfold bytesAt
  rw [← List.drop_drop, List.drop_left]

lemma bytesAt_start (s r : List Nat) : bytesAt (s ++ r) 0 s.length = s := by
  unfold bytesAt
  simp [List.take_left]

lemma readU32_w32 (v : Nat) (r : List Nat) : readU32 (w32 v ++ r) 0 = v % 4294967296 := by
  unfold readU32 w32 byteAt
  simp only [List.cons_append, List.getD_cons_zero, List.getD_cons_succ]
  omega

lemma mem_padField {x : Nat} {w : Nat} {s : List Nat} (h : x ∈ padField w s) :
    x ∈ s ∨ x = 0 := by
  unfold padField at h
  rcases List.mem_append.mp h with h | h
  · exact Or.inl (List.mem_of_mem_take h)
  · exact Or.inr (List.eq_of_mem_replicate h)

lemma cString_padField {s : List Nat} {w : Nat} (h0 : 0 ∉ s) (hw : s.length ≤ w) :
    cString (padField w s) = s := by
  unfold cString padField
  rw [List.take_of_length_le hw]
  have hpos : ∀ a ∈ s, (fun b => decide (b ≠ 0)) a = true := by
    intro a ha
    simp only [ne_eq, decide_eq_true_eq]
    intro hq
    exact h0 (hq ▸ ha)
  rw [List.takeWhile_append_of_pos hpos]
  suffices hz : (List.replicate (w - s.length) 0).takeWhile (fun b => decide (b ≠ 0)) = [] by
    rw [hz, List.append_nil]
  cases w - s.length <;> simp [List.replicate, List.takeWhile_cons]

lemma padField_length (w : Nat) (s : List Nat) : (padField w s).length = w := by
  unfold padField
  simp only [List.length_append, List.length_replicate]
  have : (s.take w).length ≤ w := by
    simp
  omega

lemma record16_length (ty nm : List Nat) (len : Nat) : (record16 ty nm len).length = 16 := by
  unfold record16 w32
  simp [padField_length]

lemma mem_extOf {x : Nat} {nm : List Nat} (h : x ∈ extOf nm) : x ∈ nm := by
  unfold extOf at h
  split at h
  · rw [List.mem_reverse] at h
    exact List.mem_reverse.mp (List.takeWhile_subset _ h)
  · simp at h

lemma mem_baseOf {x : Nat} {nm : List Nat} (h : x ∈ baseOf nm) : x ∈ nm := by
  unfold baseOf at h
  split at h
  · exact List.mem_of_mem_take h
  · exact h

/-! ### Loop invariants -/

lemma byteAt_lt {mc : List Nat} (hb : ∀ x ∈ mc, x < 256) (i : Nat) : byteAt mc i < 256 := by
  unfold byteAt
  rcases Nat.lt_or_ge i mc.length with h | h
  · rw [List.getD_eq_getElem?_getD, List.getElem?_eq_getElem h]
    exact hb _ (List.getElem_mem h)
  · rw [List.getD_eq_getElem?_getD, List.getElem?_eq_none h]
    exact Nat.zero_lt_succ _

lemma readU32_lt {mc : List Nat} (hb : ∀ x ∈ mc, x < 256) (i : Nat) :
    readU32 mc i < 4294967296 := by
  unfold readU32
  have h1 := byteAt_lt hb i
  have h2 := byteAt_lt hb (i + 1)
  have h3 := byteAt_lt hb (i + 2)
  have h4 := byteAt_lt hb (i + 3)
  omega

lemma lfdLoop_bounds (mc : List Nat) :
    ∀ fuel cursor offset acc b res,
      lfdLoop mc fuel cursor offset acc = some (b, res) →
      (∀ e ∈ acc, 16 ≤ e.offset ∧ e.offset + e.size ≤ mc.length) →
      ∀ e ∈ res, 16 ≤ e.offset ∧ e.offset + e.size ≤ mc.length := by
  intro fuel
  induction fuel with
  | zero =>
    intro cursor offset acc b res h hacc
    simp only [lfdLoop] at h
    split at h
    · injection h with h'
      injection h' with hb hr
      subst hr
      exact hacc
    · cases h
  | succ fuel ih =>
    intro cursor offset acc b res h hacc
    simp only [lfdLoop] at h
    split at h
    · injection h with h'
      injection h' with hb hr
      subst hr
      exact hacc
    · split at h
      · cases h
      · split at h
        · injection h with h'
          injection h' with hb hr
          subst hr
          exact hacc
        · refine ih _ _ _ _ _ h ?_
          intro e he
          rcases List.mem_append.mp he with he | he
          · exact hacc e he
          · rw [List.mem_singleton] at he
            subst he
            simp only
            constructor
            · omega
            · omega

lemma lfdLoop_shape (mc : List Nat) (hb : ∀ x ∈ mc, x < 256) :
    ∀ fuel cursor offset acc b res,
      lfdLoop mc fuel cursor offset acc = some (b, res) →
      (∀ e ∈ acc, e.size < 4294967296 ∧ e.data = [] ∧ e.state = 0) →
      ∀ e ∈ res, e.size < 4294967296 ∧ e.data = [] ∧ e.state = 0 := by
  intro fuel
  induction fuel with
  | zero =>
    intro cursor offset acc b res h hacc
    simp only [lfdLoop] at h
    split at h
    · injection h with h'
      injection h' with hb' hr
      subst hr
      exact hacc
    · cases h
  | succ fuel ih =>
    intro cursor offset acc b res h hacc
    simp only [lfdLoop] at h
    split at h
    · injection h with h'
      injection h' with hb' hr
      subst hr
      exact hacc
    · split at h
      · cases h
      · split at h
        · injection h with h'
          injection h' with hb' hr
          subst hr
          exact hacc
        · refine ih _ _ _ _ _ h ?_
          intro e he
          rcases List.mem_append.mp he with he | he
          · exact hacc e he
          · rw [List.mem_singleton] at he
            subst he
            exact ⟨readU32_lt hb _, rfl, rfl⟩

lemma lfdLoop_count (mc : List Nat) :
    ∀ fuel cursor offset acc b res,
      lfdLoop mc fuel cursor offset acc = some (b, res) →
      offset ≤ mc.length + 16 →
      16 * res.length + offset ≤ 16 * acc.length + mc.length + 16 := by
  intro fuel
  induction fuel with
  | zero =>
    intro cursor offset acc b res h ho
    simp only [lfdLoop] at h
    split at h
    · injection h with h'
      injection h' with hb hr
      subst hr
      omega
    · cases h
  | succ fuel ih =>
    intro cursor offset acc b res h ho
    simp only [lfdLoop] at h
    split at h
    · injection h with h'
      injection h' with hb hr
      subst hr
      omega
    · split at h
      · cases h
      · split at h
        · injection h with h'
          injection h' with hb hr
          subst hr
          omega
        · rename_i hexit hread hlen
          have := ih _ _ _ _ _ h (by omega)
          simp only [List.length_append, List.length_singleton] at this
          omega


lemma bspTexLoopOpen_inv (mc : List Nat) (t : Nat) :
    ∀ r cursor acc b res,
      bspTexLoopOpen mc t r cursor acc = some (b, res) →
      (∀ e ∈ acc, TexOk mc e.offset ∧ e.state = 0) →
      ∀ e ∈ res, TexOk mc e.offset ∧ e.state = 0 := by
  intro r
  induction r with
  | zero =>
    intro cursor acc b res h hacc
    simp only [bspTexLoopOpen] at h
    injection h with h'
    injection h' with hb hr
    subst hr
    exact hacc
  | succ r ih =>
    intro cursor acc b res h hacc
    simp only [bspTexLoopOpen] at h
    split at h
    · cases h
    · split at h
      · exact ih _ _ _ _ h hacc
      · split at h
        · injection h with h'
          injection h' with hb hr
          subst hr
          exact hacc
        · split at h
          · injection h with h'
            injection h' with hb hr
            subst hr
            exact hacc
          · split at h
            · injection h with h'
              injection h' with hb hr
              subst hr
              exact hacc
            · split at h
              · injection h with h'
                injection h' with hb hr
                subst hr
                exact hacc
              · split at h
                · injection h with h'
                  injection h' with hb hr
                  subst hr
                  exact hacc
                · split at h
                  · injection h with h'
                    injection h' with hb hr
                    subst hr
                    exact hacc
                  · rename_i hread hsent hhdr hdim h1 h2 h4 h8
                    refine ih _ _ _ _ h ?_
                    intro e he
                    rcases List.mem_append.mp he with he | he
                    · exact hacc e he
                    · rw [List.mem_singleton] at he
                      subst he
                      push_neg at hdim
                      unfold TexOk
                      dsimp only
                      refine ⟨⟨by omega, hdim.1, hdim.2.1, hdim.2.2.1, hdim.2.2.2, by omega⟩, rfl⟩

lemma bspSlots_checks (mc : List Nat) :
    ∀ r a t₀ t, bspSlots mc r a t₀ = some (some t) →
      ∀ j, a ≤ j → j < a + r →
        (readU32 mc (8 + 8 * j) + readU32 mc (4 + 8 * j)) % 4294967296 ≤ mc.length := by
  intro r
  induction r with
  | zero =>
    intro a t₀ t h j hj hj'
    omega
  | succ r ih =>
    intro a t₀ t h j hj hj'
    simp only [bspSlots] at h
    split at h
    · cases h
    · split at h
      · cases h
      · split at h
        · split at h
          · cases h
          · rename_i hread hchk ha hsz
            rcases Nat.eq_or_lt_of_le hj with hj2 | hj2
            · subst hj2
              omega
            · exact ih _ _ _ h j hj2 (by omega)
        · rename_i hread hchk ha
          rcases Nat.eq_or_lt_of_le hj with hj2 | hj2
          · subst hj2
            omega
          · exact ih _ _ _ h j hj2 (by omega)

lemma bspSlots_texbase (mc : List Nat) :
    ∀ r a t₀ t, bspSlots mc r a t₀ = some (some t) →
      (2 < a → t = t₀) ∧ (a ≤ 2 → 2 < a + r → t = readU32 mc (4 + 8 * 2)) := by
  intro r
  induction r with
  | zero =>
    intro a t₀ t h
    simp only [bspSlots] at h
    injection h with h'
    injection h' with h''
    constructor
    · intro _
      exact h''.symm
    · intro h1 h2
      omega
  | succ r ih =>
    intro a t₀ t h
    simp only [bspSlots] at h
    split at h
    · cases h
    · split at h
      · cases h
      · split at h
        · split at h
          · cases h
          · rename_i hread hchk ha hsz
            subst ha
            have := ih _ _ _ h
            constructor
            · intro h3
              omega
            · intro _ _
              exact this.1 (by omega)
        · rename_i hread hchk ha
          have := ih _ _ _ h
          constructor
          · intro h3
            exact this.1 (by omega)
          · intro h3 h4
            rcases Nat.lt_or_ge a 2 with h5 | h5
            · exact this.2 (by omega) (by omega)
            · have ha2 : a = 2 := by omega
              exact absurd ha2 ha

/-! ### Case decompositions of the two open functions -/

lemma lfdOpen_cases {mc : List Nat} {r : Bool} {st : ArchState}
    (h : lfdOpen mc = some (r, st)) :
    (r = false ∧ st = ⟨[], false, false⟩) ∨
    (∃ acc, readU32 mc 12 ≤ mc.length ∧
      lfdLoop mc (mc.length + 1) 16 (readU32 mc 12 + 16) [] = some (false, acc) ∧
      r = false ∧ st = ⟨acc, false, false⟩) ∨
    (∃ acc, readU32 mc 12 ≤ mc.length ∧
      lfdLoop mc (mc.length + 1) 16 (readU32 mc 12 + 16) [] = some (true, acc) ∧
      r = true ∧ st = ⟨detectPass mc acc, false, false⟩) := by
  simp only [lfdOpen] at h
  split at h
  · injection h with h'
    injection h' with h1 h2
    exact Or.inl ⟨h1.symm, h2.symm⟩
  · split at h
    · injection h with h'
      injection h' with h1 h2
      exact Or.inl ⟨h1.symm, h2.symm⟩
    · split at h
      · injection h with h'
        injection h' with h1 h2
        exact Or.inl ⟨h1.symm, h2.symm⟩
      · split at h
        · injection h with h'
          injection h' with h1 h2
          exact Or.inl ⟨h1.symm, h2.symm⟩
        · rename_i hdir
          push_neg at hdir
          split at h
          · cases h
          · rename_i acc heq
            injection h with h'
            injection h' with h1 h2
            exact Or.inr (Or.inl ⟨acc, hdir.1, heq, h1.symm, h2.symm⟩)
          · rename_i acc heq
            injection h with h'
            injection h' with h1 h2
            exact Or.inr (Or.inr ⟨acc, hdir.1, heq, h1.symm, h2.symm⟩)

lemma bspOpen_cases {mc : List Nat} {r : Bool} {st : ArchState}
    (h : bspOpen mc = some (r, st)) :
    ((mc.length < 64 ∨ (readU32 mc 0 ≠ 23 ∧ readU32 mc 0 ≠ 29)) ∧
      r = false ∧ st = ⟨[], false, false⟩) ∨
    (r = false ∧ st = ⟨[], true, false⟩) ∨
    (∃ t acc, bspSlots mc 15 0 0 = some (some t) ∧
      bspTexLoopOpen mc t (readU32 mc t) (t + 4) [] = some (false, acc) ∧
      r = false ∧ st = ⟨acc, true, false⟩) ∨
    (∃ t acc, bspSlots mc 15 0 0 = some (some t) ∧
      bspTexLoopOpen mc t (readU32 mc t) (t + 4) [] = some (true, acc) ∧
      r = true ∧ st = ⟨detectPass mc acc, false, false⟩) := by
  simp only [bspOpen] at h
  split at h
  · rename_i h64
    injection h with h'
    injection h' with h1 h2
    exact Or.inl ⟨Or.inl h64, h1.symm, h2.symm⟩
  · split at h
    · rename_i h64 hver
      injection h with h'
      injection h' with h1 h2
      exact Or.inl ⟨Or.inr hver, h1.symm, h2.symm⟩
    · split at h
      · cases h
      · injection h with h'
        injection h' with h1 h2
        exact Or.inr (Or.inl ⟨h1.symm, h2.symm⟩)
      · rename_i t heqslots
        split at h
        · cases h
        · split at h
          · cases h
          · split at h
            · injection h with h'
              injection h' with h1 h2
              exact Or.inr (Or.inl ⟨h1.symm, h2.symm⟩)
            · split at h
              · cases h
              · rename_i acc heqloop
                injection h with h'
                injection h' with h1 h2
                exact Or.inr (Or.inr (Or.inl ⟨t, acc, heqslots, heqloop, h1.symm, h2.symm⟩))
              · rename_i acc heqloop
                injection h with h'
                injection h' with h1 h2
                exact Or.inr (Or.inr (Or.inr ⟨t, acc, heqslots, heqloop, h1.symm, h2.symm⟩))

/-! ### Entry-preservation facts about the detection pass -/

lemma bytesAt_length {mc : List Nat} {i n : Nat} (h : i + n ≤ mc.length) :
    (bytesAt mc i n).length = n := by
  unfold bytesAt
  rw [List.length_take, List.length_drop]
  omega

lemma detectGo_map (mc : List Nat) :
    ∀ es edata,
      (∀ e ∈ es, e.offset + e.size ≤ mc.length ∧ (e.size = 0 → e.data = [])) →
      detectGo mc edata es =
        es.map (fun e => { e with data := bytesAt mc e.offset e.size, state := 0 }) := by
  intro es
  induction es with
  | nil =>
    intro edata _
    simp [detectGo]
  | cons a as ih =>
    intro edata hq
    have ha := hq a (List.mem_cons_self a as)
    simp only [detectGo, List.map_cons]
    split
    · rw [if_pos ha.1, ih _ (fun x hx => hq x (List.mem_cons_of_mem _ hx))]
    · rename_i hsz
      have h0 : a.size = 0 := by omega
      have hd : a.data = [] := ha.2 h0
      rw [ih _ (fun x hx => hq x (List.mem_cons_of_mem _ hx))]
      congr 1
      cases a with
      | mk nm sz off dt st =>
        simp only at h0 hd
        subst h0
        subst hd
        simp [bytesAt]

lemma detectGo_pres (mc : List Nat) (Q : List Nat → Nat → Nat → Prop) :
    ∀ es edata, (∀ e ∈ es, Q e.name e.size e.offset) →
      ∀ e ∈ detectGo mc edata es, Q e.name e.size e.offset ∧ e.state = 0 := by
  intro es
  induction es with
  | nil => intro edata _ e he; simp [detectGo] at he
  | cons a as ih =>
    intro edata hq e he
    unfold detectGo at he
    split at he
    · rcases List.mem_cons.mp he with h | h
      · subst h; exact ⟨hq a (List.mem_cons_self a as), rfl⟩
      · exact ih _ (fun x hx => hq x (List.mem_cons_of_mem _ hx)) e h
    · rcases List.mem_cons.mp he with h | h
      · subst h; exact ⟨hq a (List.mem_cons_self a as), rfl⟩
      · exact ih _ (fun x hx => hq x (List.mem_cons_of_mem _ hx)) e h

/-! ### Claim theorems: C1, C4, C5, C6, C7, C9, C10 -/

/-- C1, counterexample: the claim says a failed decode leaves zero Entries
even when records were already processed.  On c1bytes the LFD decode fails
(last record's length overruns the file) yet one Entry remains exposed. -/
theorem c1_counterexample :
    (lfdOpen c1bytes).map (fun r => (r.1, r.2.entries.length)) = some (false, 1) := by
  decide

/-- C1 (amended): a failed decode is not atomic — the Entries created before
the validation failure remain in the tree.  What does hold, for success and
failure alike and for both exemplars: every exposed Entry references an
in-bounds region of the byte source (for exemplar B the declared payload
[offset, offset+size) lies within the source and starts at or after byte 16;
for exemplar A the 40-byte sub-header at the recorded offset lies within the
source). -/
theorem c1_entries_in_bounds :
    (∀ mc (r : Bool) (st : ArchState), lfdOpen mc = some (r, st) →
      ∀ e ∈ st.entries, 16 ≤ e.offset ∧ e.offset + e.size ≤ mc.length) ∧
    (∀ mc (r : Bool) (st : ArchState), bspOpen mc = some (r, st) →
      ∀ e ∈ st.entries, e.offset + 40 ≤ mc.length) := by
  constructor
  · intro mc r st h e he
    rcases lfdOpen_cases h with ⟨_, hst⟩ | ⟨acc, _, heq, _, hst⟩ | ⟨acc, _, heq, _, hst⟩
    · subst hst
      simp at he
    · subst hst
      exact lfdLoop_bounds mc _ _ _ _ _ _ heq (by intro x hx; simp at hx) e he
    · subst hst
      have hacc := lfdLoop_bounds mc _ _ _ _ _ _ heq (by intro x hx; simp at hx)
      exact (detectGo_pres mc (fun _ sz off => 16 ≤ off ∧ off + sz ≤ mc.length) acc []
        (fun x hx => hacc x hx) e he).1
  · intro mc r st h e he
    rcases bspOpen_cases h with ⟨_, _, hst⟩ | ⟨_, hst⟩ | ⟨t, acc, _, heq, _, hst⟩ |
      ⟨t, acc, _, heq, _, hst⟩
    · subst hst
      simp at he
    · subst hst
      simp at he
    · subst hst
      exact ((bspTexLoopOpen_inv mc t _ _ _ _ _ heq (by intro x hx; simp at hx)) e he).1.1
    · subst hst
      have hacc := bspTexLoopOpen_inv mc t _ _ _ _ _ heq (by intro x hx; simp at hx)
      exact ((detectGo_pres mc (fun _ _ off => TexOk mc off) acc []
        (fun x hx => (hacc x hx).1) e he).1).1

theorem c1_witness :
    16 ≤ c1entry.offset ∧ c1entry.offset + c1entry.size ≤ c1bytes.length :=
  c1_entries_in_bounds.1 c1bytes false ⟨[c1entry], false, false⟩ (by decide) c1entry
    (List.mem_singleton.mpr rfl)

/-- C4, counterexample: the claim says a slot whose true (unbounded)
offset+length exceeds the total size is always rejected, overflow included.
c4bytes has slot 5 = (0xFFFFFFFF, 1): the true sum 2^32 exceeds the 128-byte
size, but the 32-bit sum wraps to 0 and the decode succeeds. -/
theorem c4_counterexample :
    bspOpenOk c4bytes = some true ∧
      c4bytes.length < readU32 c4bytes 44 + readU32 c4bytes 48 := by
  decide

/-- C4 (amended): the decoder's derived arithmetic checks use wrapping 32-bit
arithmetic, not overflow-as-out-of-bounds.  What a successful decode
guarantees is exactly: each of the 15 slots' offset+length reduced mod 2^32 is
within the size, and for each texture entry the first mip bound
base + offset1 + (width*height mod 2^32) is within the size — a sum or
product that wraps past 2^32 can therefore pass validation. -/
theorem c4_wrapped_bounds :
    ∀ mc (st : ArchState), bspOpen mc = some (true, st) →
      (∀ a, a < 15 →
        (readU32 mc (8 + 8 * a) + readU32 mc (4 + 8 * a)) % 4294967296 ≤ mc.length) ∧
      (∀ e ∈ st.entries,
        e.offset + readU32 mc (e.offset + 24) +
          readU32 mc (e.offset + 16) * readU32 mc (e.offset + 20) % 4294967296 ≤
            mc.length) := by
  intro mc st h
  rcases bspOpen_cases h with ⟨_, hr, _⟩ | ⟨hr, _⟩ | ⟨t, acc, _, _, hr, _⟩ |
    ⟨t, acc, hslots, heq, _, hst⟩
  · exact Bool.noConfusion hr
  · exact Bool.noConfusion hr
  · exact Bool.noConfusion hr
  · subst hst
    constructor
    · intro a ha
      exact bspSlots_checks mc 15 0 0 t hslots a (Nat.zero_le a) (by omega)
    · intro e he
      have hacc := bspTexLoopOpen_inv mc t _ _ _ _ _ heq (by intro x hx; simp at hx)
      have hx := (detectGo_pres mc (fun _ _ off => TexOk mc off) acc []
        (fun x hx => (hacc x hx).1) e he).1
      exact hx.2.2.2.2.2

theorem c4_witness :
    (readU32 c4bytes (8 + 8 * 5) + readU32 c4bytes (4 + 8 * 5)) % 4294967296 ≤
      c4bytes.length :=
  (c4_wrapped_bounds c4bytes ⟨[], false, false⟩ (by decide)).1 5 (by omega)

/-- C5, counterexample: the claim says decode of a version-0x1D source with
slot 2 = (offset, length 8-like nonzero) and texture count 0 fails with a
"no content" StructuralViolation.  On c5bytes (slot 2 nonzero length, texture
count 0 at the directory base) the decode succeeds. -/
theorem c5_counterexample : bspOpenOk c5bytes = some true := by decide

/-- C5 (amended): with slot 2's length nonzero and a stored texture count of
0, decode succeeds with an empty Entry tree; the "no content" rejection fires
only when slot 2's declared length is 0 (c5zbytes), not when the texture
count is 0. -/
theorem c5_zero_count_succeeds :
    bspOpen c5bytes = some (true, ⟨[], false, false⟩) ∧
      bspOpen c5zbytes = some (false, ⟨[], true, false⟩) := by
  decide

/-- C6: a texture sub-header with width or height zero or not a multiple of 8
always aborts the decode — equivalently, whenever exemplar A's decode
succeeds, every produced entry's sub-header has nonzero width and height that
are multiples of 8 (read back at the entry's recorded sub-header offset). -/
theorem c6_dims_checked :
    ∀ mc (st : ArchState), bspOpen mc = some (true, st) →
      ∀ e ∈ st.entries,
        readU32 mc (e.offset + 16) ≠ 0 ∧ readU32 mc (e.offset + 20) ≠ 0 ∧
        readU32 mc (e.offset + 16) % 8 = 0 ∧ readU32 mc (e.offset + 20) % 8 = 0 := by
  intro mc st h e he
  rcases bspOpen_cases h with ⟨_, hr, _⟩ | ⟨hr, _⟩ | ⟨t, acc, _, _, hr, _⟩ |
    ⟨t, acc, _, heq, _, hst⟩
  · exact Bool.noConfusion hr
  · exact Bool.noConfusion hr
  · exact Bool.noConfusion hr
  · subst hst
    have hacc := bspTexLoopOpen_inv mc t _ _ _ _ _ heq (by intro x hx; simp at hx)
    have hx := (detectGo_pres mc (fun _ _ off => TexOk mc off) acc []
      (fun x hx => (hacc x hx).1) e he).1
    exact ⟨hx.2.2.2.1, hx.2.2.2.2.1, hx.2.1, hx.2.2.1⟩

theorem c6_witness :
    readU32 c6bytes (c6entry.offset + 16) ≠ 0 ∧ readU32 c6bytes (c6entry.offset + 20) ≠ 0 ∧
      readU32 c6bytes (c6entry.offset + 16) % 8 = 0 ∧
      readU32 c6bytes (c6entry.offset + 20) % 8 = 0 :=
  c6_dims_checked c6bytes ⟨[c6entry], false, false⟩ (by decide) c6entry
    (List.mem_singleton.mpr rfl)

/-- C7: an exemplar-B source with magic RMAP, directory length 16 and total
size exactly 16 decodes successfully into an empty Entry tree. -/
theorem c7_empty_rmap_ok : lfdOpen c7bytes = some (true, ⟨[], false, false⟩) := by
  decide

/-- C9: every exemplar-A decode failure after the minimum-size and version-tag
checks returns with the muted flag still set, whereas every exemplar-B decode
failure returns with the muted flag false (the LFD walk restores it before
returning). -/
theorem c9_muted_on_failure :
    (∀ mc (st : ArchState), bspOpen mc = some (false, st) → 64 ≤ mc.length →
      (readU32 mc 0 = 23 ∨ readU32 mc 0 = 29) → st.muted = true) ∧
    (∀ mc (st : ArchState), lfdOpen mc = some (false, st) → st.muted = false) := by
  constructor
  · intro mc st h h64 hver
    rcases bspOpen_cases h with ⟨hcond, _, hst⟩ | ⟨_, hst⟩ | ⟨t, acc, _, _, _, hst⟩ |
      ⟨t, acc, _, _, hr, _⟩
    · rcases hcond with hc | hc
      · omega
      · rcases hver with hv | hv
        · exact absurd hv hc.1
        · exact absurd hv hc.2
    · subst hst
      rfl
    · subst hst
      rfl
    · exact Bool.noConfusion hr
  · intro mc st h
    rcases lfdOpen_cases h with ⟨_, hst⟩ | ⟨acc, _, _, _, hst⟩ | ⟨acc, _, _, hr, _⟩
    · subst hst
      rfl
    · subst hst
      rfl
    · exact Bool.noConfusion hr

theorem c9_witness : (⟨[], true, false⟩ : ArchState).muted = true :=
  c9_muted_on_failure.1 c5zbytes ⟨[], true, false⟩ (by decide) (by decide)
    (Or.inr (by decide))

/-- C10: after every successful decode of either exemplar the archive's
modified flag is false and every entry's state is 0 (unmodified). -/
theorem c10_unmodified_after_open :
    (∀ mc (st : ArchState), bspOpen mc = some (true, st) →
      st.modified = false ∧ ∀ e ∈ st.entries, e.state = 0) ∧
    (∀ mc (st : ArchState), lfdOpen mc = some (true, st) →
      st.modified = false ∧ ∀ e ∈ st.entries, e.state = 0) := by
  constructor
  · intro mc st h
    rcases bspOpen_cases h with ⟨_, hr, _⟩ | ⟨hr, _⟩ | ⟨t, acc, _, _, hr, _⟩ |
      ⟨t, acc, _, _, _, hst⟩
    · exact Bool.noConfusion hr
    · exact Bool.noConfusion hr
    · exact Bool.noConfusion hr
    · subst hst
      refine ⟨rfl, ?_⟩
      intro e he
      exact (detectGo_pres mc (fun _ _ _ => True) acc [] (fun _ _ => trivial) e he).2
  · intro mc st h
    rcases lfdOpen_cases h with ⟨_, hst⟩ | ⟨acc, _, _, hr, _⟩ | ⟨acc, _, _, _, hst⟩
    · subst hst
      exact ⟨rfl, by intro e he; simp at he⟩
    · exact Bool.noConfusion hr
    · subst hst
      refine ⟨rfl, ?_⟩
      intro e he
      exact (detectGo_pres mc (fun _ _ _ => True) acc [] (fun _ _ => trivial) e he).2

theorem c10_witness :
    (⟨[], false, false⟩ : ArchState).modified = false ∧
      ∀ e ∈ (⟨[], false, false⟩ : ArchState).entries, e.state = 0 :=
  c10_unmodified_after_open.2 c7bytes ⟨[], false, false⟩ (by decide)

/-! ### Claim C8: the signature probe versus the full decode -/

lemma probe_eq_open (mc : List Nat) (t : Nat) :
    ∀ r cursor acc,
      (∀ i, i < r → readU32 mc (cursor + 4 * i) ≠ 4294967295) →
      bspTexLoopProbe mc t r cursor =
        (bspTexLoopOpen mc t r cursor acc).map (fun p => p.1) := by
  intro r
  induction r with
  | zero =>
    intro cursor acc _
    simp [bspTexLoopProbe, bspTexLoopOpen]
  | succ r ih =>
    intro cursor acc hns
    have hoff : readU32 mc cursor ≠ 4294967295 := by
      have := hns 0 (Nat.zero_lt_succ r)
      simpa using this
    have hshift : ∀ i, i < r → readU32 mc (cursor + 4 + 4 * i) ≠ 4294967295 := by
      intro i hi
      have := hns (i + 1) (by omega)
      rwa [show cursor + 4 * (i + 1) = cursor + 4 + 4 * i by ring] at this
    simp only [bspTexLoopProbe, bspTexLoopOpen]
    split
    · rfl
    · split
      · rfl
      · split
        · rfl
        · split
          · rfl
          · split
            · rfl
            · split
              · rfl
              · split
                · rfl
                · exact ih (cursor + 4) _ hshift

/-- C8, counterexample: the claim says the probe accepts exactly what the full
decode's validation accepts and that both skip a sentinel table offset.  On
c8bytes (single table offset 0xFFFFFFFF) the full decode skips the sentinel
and succeeds while the probe — whose 40-byte bounds check runs before its
sentinel test — rejects. -/
theorem c8_counterexample :
    bspOpenOk c8bytes = some true ∧ isBSPArchive c8bytes = some false := by
  decide

/-- C8 (amended): for sources none of whose texture-table offsets is the
all-bits-set sentinel, the validation-only probe agrees exactly with the full
decode (success, failure, and indeterminate-read cases alike); on a sentinel
the two diverge, the decode skipping it and the probe rejecting the source. -/
theorem c8_probe_matches_open :
    ∀ mc, (∀ i, i < readU32 mc (readU32 mc 20) →
        readU32 mc (readU32 mc 20 + 4 + 4 * i) ≠ 4294967295) →
      isBSPArchive mc = (bspOpen mc).map (fun r => r.1) := by
  intro mc hns
  simp only [isBSPArchive, bspOpen]
  split
  · rfl
  · split
    · rfl
    · cases hsl : bspSlots mc 15 0 0 with
      | none => rfl
      | some o =>
        cases o with
        | none => rfl
        | some t =>
          have ht : t = readU32 mc 20 := by
            have := (bspSlots_texbase mc 15 0 0 t hsl).2 (by omega) (by omega)
            simpa using this
          subst ht
          show (if mc.length < readU32 mc 20 then none
              else if mc.length < readU32 mc 20 + 4 then none
              else if mc.length <
                  (readU32 mc 20 + (readU32 mc (readU32 mc 20) + 1) * 4 % 4294967296) %
                    4294967296 then some false
              else bspTexLoopProbe mc (readU32 mc 20) (readU32 mc (readU32 mc 20))
                (readU32 mc 20 + 4)) =
            Option.map (fun r => r.1)
              (if mc.length < readU32 mc 20 then none
              else if mc.length < readU32 mc 20 + 4 then none
              else if mc.length <
                  (readU32 mc 20 + (readU32 mc (readU32 mc 20) + 1) * 4 % 4294967296) %
                    4294967296 then some (false, (⟨[], true, false⟩ : ArchState))
              else
                match bspTexLoopOpen mc (readU32 mc 20) (readU32 mc (readU32 mc 20))
                    (readU32 mc 20 + 4) [] with
                | none => none
                | some (false, acc) => some (false, (⟨acc, true, false⟩ : ArchState))
                | some (true, acc) =>
                  some (true, (⟨detectPass mc acc, false, false⟩ : ArchState)))
          split
          · rfl
          · split
            · rfl
            · split
              · rfl
              · rw [probe_eq_open mc _ _ _ [] hns]
                cases hlp : bspTexLoopOpen mc (readU32 mc 20) (readU32 mc (readU32 mc 20))
                    (readU32 mc 20 + 4) [] with
                | none => rfl
                | some p =>
                  cases p with
                  | mk b acc => cases b <;> rfl

theorem c8_witness : isBSPArchive c6bytes = (bspOpen c6bytes).map (fun r => r.1) :=
  c8_probe_matches_open c6bytes (by decide)

/-! ### Claim C3: the size of an encoded LFD container -/

lemma entryRecord_length (e : Entry) : (entryRecord e).length = 16 := by
  unfold entryRecord
  exact record16_length _ _ _

lemma dirRecords_length (es : List Entry) :
    ((es.map entryRecord).flatten).length = 16 * es.length := by
  induction es with
  | nil => simp
  | cons e es ih =>
    simp only [List.map_cons, List.flatten_cons, List.length_append, ih, entryRecord_length,
      List.length_cons]
    ring

lemma chunks_length (es : List Entry) (hd : ∀ e ∈ es, e.data.length = e.size) :
    ((es.map (fun e => entryRecord e ++ e.data)).flatten).length =
      16 * es.length + (es.map Entry.size).sum := by
  induction es with
  | nil => simp
  | cons e es ih =>
    have he := hd e (List.mem_cons_self e es)
    rw [List.map_cons, List.flatten_cons, List.length_append, List.length_append,
      entryRecord_length, ih (fun x hx => hd x (List.mem_cons_of_mem _ hx)), he,
      List.length_cons, List.map_cons, List.sum_cons]
    ring

lemma lfdWrite_length (es : List Entry) (hd : ∀ e ∈ es, e.data.length = e.size) :
    (lfdWrite es).length = (2 * es.length + 1) * 16 + (es.map Entry.size).sum := by
  unfold lfdWrite
  rw [List.length_append, List.length_append, record16_length, dirRecords_length,
    chunks_length es hd]
  ring

/-- C3, counterexample: the claim's total (entryCount+1)*16 + sum of sizes
fails already for a tree of one empty entry — the encoder writes each entry's
16-byte header twice (directory and payload region), producing 48 bytes, not
32. -/
theorem c3_counterexample :
    ¬ ((lfdWrite [⟨[65], 0, 0, [], 0⟩]).length =
        ([(⟨[65], 0, 0, [], 0⟩ : Entry)].length + 1) * 16 +
          ([(⟨[65], 0, 0, [], 0⟩ : Entry)].map Entry.size).sum) := by
  decide

/-- C3 (amended): for every entry tree whose entries' loaded payloads match
their declared sizes, the encoded container's byte length is
(2*entryCount + 1) * 16 + sum of entry sizes: one leading record, one
directory record per entry, and one further header per entry preceding its
payload. -/
theorem c3_write_size :
    ∀ es : List Entry, (∀ e ∈ es, e.data.length = e.size) →
      (lfdWrite es).length = (2 * es.length + 1) * 16 + (es.map Entry.size).sum := by
  intro es hd
  exact lfdWrite_length es hd

theorem c3_witness :
    (lfdWrite [⟨[65, 66, 46, 67], 2, 48, [7, 8], 0⟩]).length =
      (2 * [(⟨[65, 66, 46, 67], 2, 48, [7, 8], 0⟩ : Entry)].length + 1) * 16 +
        ([(⟨[65, 66, 46, 67], 2, 48, [7, 8], 0⟩ : Entry)].map Entry.size).sum :=
  c3_write_size [⟨[65, 66, 46, 67], 2, 48, [7, 8], 0⟩] (by decide)

/-! ### Claim C2: the LFD encode/decode round trip -/

lemma lfdLoop_step (mc : List Nat) (fuel cursor offset : Nat) (acc : List Entry)
    (h1 : ¬ mc.length ≤ offset) (h2 : ¬ mc.length < cursor + 16)
    (h3 : ¬ mc.length < offset + 16 + readU32 mc (cursor + 12)) :
    lfdLoop mc (fuel + 1) cursor offset acc =
      lfdLoop mc fuel (offset + 16 + readU32 mc (cursor + 12))
        (offset + 16 + readU32 mc (cursor + 12))
        (acc ++ [⟨setExtName (cString (bytesAt mc (cursor + 4) 8)) (cString (bytesAt mc cursor 4)),
          readU32 mc (cursor + 12), offset + 16, [], 0⟩]) := by
  simp only [lfdLoop]
  rw [if_neg h1, if_neg h2, if_neg h3]

lemma bytesAt_middle (a b c : List Nat) : bytesAt (a ++ (b ++ c)) a.length b.length = b := by
  have h := bytesAt_append_right a (b ++ c) 0 b.length
  rw [Nat.add_zero] at h
  rw [h]
  unfold bytesAt
  rw [List.drop_zero, List.take_left]

lemma bytesAt_pf (a : List Nat) (w : Nat) (s c : List Nat) :
    bytesAt (a ++ (padField w s ++ c)) a.length w = padField w s := by
  have h := bytesAt_middle a (padField w s) c
  rwa [padField_length] at h

lemma readU32_middle (a : List Nat) (v : Nat) (c : List Nat) :
    readU32 (a ++ (w32 v ++ c)) a.length = v % 4294967296 := by
  have h := readU32_append_right a (w32 v ++ c) 0
  rw [Nat.add_zero] at h
  rw [h, readU32_w32]

/-- Reading the three header fields of an entry's 16-byte record placed at
position pre.length of the encoded buffer gives back the split name parts and
the size. -/
lemma record_reads3 (pre rest : List Nat) (e : Entry)
    (hbl : (baseOf e.name).length ≤ 8) (hxl : (extOf e.name).length ≤ 4)
    (h0 : 0 ∉ e.name) (hsz : e.size < 4294967296) :
    cString (bytesAt (pre ++ entryRecord e ++ rest) pre.length 4) = extOf e.name ∧
    cString (bytesAt (pre ++ entryRecord e ++ rest) (pre.length + 4) 8) = baseOf e.name ∧
    readU32 (pre ++ entryRecord e ++ rest) (pre.length + 12) = e.size := by
  have h0x : 0 ∉ extOf e.name := fun hm => h0 (mem_extOf hm)
  have h0b : 0 ∉ baseOf e.name := fun hm => h0 (mem_baseOf hm)
  refine ⟨?_, ?_, ?_⟩
  · have hW : pre ++ entryRecord e ++ rest =
        pre ++ (padField 4 (extOf e.name) ++
          (padField 8 (baseOf e.name) ++ (w32 e.size ++ rest))) := by
      simp [entryRecord, record16, List.append_assoc]
    rw [hW, bytesAt_pf, cString_padField h0x hxl]
  · have hW : pre ++ entryRecord e ++ rest =
        (pre ++ padField 4 (extOf e.name)) ++
          (padField 8 (baseOf e.name) ++ (w32 e.size ++ rest)) := by
      simp [entryRecord, record16, List.append_assoc]
    have hp : (pre ++ padField 4 (extOf e.name)).length = pre.length + 4 := by
      rw [List.length_append, padField_length]
    rw [hW, ← hp, bytesAt_pf, cString_padField h0b hbl]
  · have hW : pre ++ entryRecord e ++ rest =
        (pre ++ padField 4 (extOf e.name) ++ padField 8 (baseOf e.name)) ++
          (w32 e.size ++ rest) := by
      simp [entryRecord, record16, List.append_assoc]
    have hp : (pre ++ padField 4 (extOf e.name) ++ padField 8 (baseOf e.name)).length =
        pre.length + 12 := by
      rw [List.length_append, List.length_append, padField_length, padField_length]
    rw [hW, ← hp, readU32_middle, Nat.mod_eq_of_lt hsz]

/-- Reading an entry's payload back from its position in the encoded buffer
gives the payload bytes. -/
lemma record_read_data (pre rest : List Nat) (e : Entry) (hdt : e.data.length = e.size) :
    bytesAt (pre ++ (entryRecord e ++ e.data) ++ rest) (pre.length + 16) e.size = e.data := by
  have hW : pre ++ (entryRecord e ++ e.data) ++ rest =
      (pre ++ entryRecord e) ++ (e.data ++ rest) := by
    simp [List.append_assoc]
  have hp : (pre ++ entryRecord e).length = pre.length + 16 := by
    rw [List.length_append, entryRecord_length]
  rw [hW, ← hp, ← hdt, bytesAt_middle]

/-- Walking the payload region of an encoded container: when the bytes from
position pre.length on are exactly the per-entry header+payload chunks of es,
the LFD record walk succeeds and appends one entry per chunk whose name, size
and readable payload match es.  The read cursor is decoupled from the tracked
payload offset because the walk's first header read happens wherever the
cursor stands (in lfdOpen: at byte 16, inside the directory); the hypothesis
only demands that the bytes at the cursor spell the first entry's record. -/
lemma lfdWalk (W : List Nat) :
    ∀ (es : List Entry) (pre : List Nat) (cur : Nat) (acc : List Entry) (fuel : Nat),
      W = pre ++ (es.map (fun x => entryRecord x ++ x.data)).flatten →
      (∀ e ∈ es, e.data.length = e.size ∧ e.size < 4294967296 ∧
        (baseOf e.name).length ≤ 8 ∧ (extOf e.name).length ≤ 4 ∧ 0 ∉ e.name ∧
        setExtName (baseOf e.name) (extOf e.name) = e.name) →
      es.length ≤ fuel →
      (∀ e ∈ es.head?,
        cString (bytesAt W cur 4) = extOf e.name ∧
        cString (bytesAt W (cur + 4) 8) = baseOf e.name ∧
        readU32 W (cur + 12) = e.size ∧ cur + 16 ≤ W.length) →
      ∃ res, lfdLoop W fuel cur pre.length acc = some (true, acc ++ res) ∧
        res.map (fun r => (r.name, r.size, bytesAt W r.offset r.size)) = es.map sig ∧
        ∀ r ∈ res, r.offset + r.size ≤ W.length ∧ r.data = [] ∧ r.state = 0 := by
  intro es
  induction es with
  | nil =>
    intro pre cur acc fuel hW _ _ _
    have hlen : W.length = pre.length := by
      rw [hW]
      simp
    refine ⟨[], ?_, by simp, by simp⟩
    cases fuel with
    | zero => simp [lfdLoop, hlen]
    | succ fuel => simp [lfdLoop, hlen]
  | cons e es ih =>
    intro pre cur acc fuel hW hall hfuel hcur
    obtain ⟨hdt, hsz, hbl, hxl, h0, hjoin⟩ := hall e (List.mem_cons_self e es)
    obtain ⟨hty, hnm, hlen, hcur16⟩ := hcur e (by simp)
    have hfl : ((e :: es).map (fun x => entryRecord x ++ x.data)).flatten =
        (entryRecord e ++ e.data) ++ (es.map (fun x => entryRecord x ++ x.data)).flatten := by
      simp
    rw [hfl] at hW
    have hWc : W = (pre ++ (entryRecord e ++ e.data)) ++
        (es.map (fun x => entryRecord x ++ x.data)).flatten := by
      rw [hW]
      simp [List.append_assoc]
    have hWlen : W.length = pre.length + 16 + e.size +
        ((es.map (fun x => entryRecord x ++ x.data)).flatten).length := by
      rw [hWc]
      simp only [List.length_append, entryRecord_length, hdt]
      omega
    have hdata : bytesAt W (pre.length + 16) e.size = e.data := by
      rw [hWc]
      exact record_read_data pre _ e hdt
    have hpre' : pre.length + 16 + e.size = (pre ++ (entryRecord e ++ e.data)).length := by
      simp only [List.length_append, entryRecord_length, hdt]
      omega
    have hcur' : ∀ e' ∈ es.head?,
        cString (bytesAt W (pre ++ (entryRecord e ++ e.data)).length 4) = extOf e'.name ∧
        cString (bytesAt W ((pre ++ (entryRecord e ++ e.data)).length + 4) 8) =
          baseOf e'.name ∧
        readU32 W ((pre ++ (entryRecord e ++ e.data)).length + 12) = e'.size ∧
        (pre ++ (entryRecord e ++ e.data)).length + 16 ≤ W.length := by
      intro e' he'
      cases es with
      | nil => simp at he'
      | cons e2 es2 =>
        have he2 : e2 = e' := by simpa using he'
        subst he2
        obtain ⟨hdt', hsz', hbl', hxl', h0', hjoin'⟩ :=
          hall e2 (List.mem_cons_of_mem _ (List.mem_cons_self e2 es2))
        have hWa' : W = (pre ++ (entryRecord e ++ e.data)) ++ entryRecord e2 ++
            (e2.data ++ (es2.map (fun x => entryRecord x ++ x.data)).flatten) := by
          rw [hWc]
          simp [List.append_assoc]
        have r3 := record_reads3 (pre ++ (entryRecord e ++ e.data))
          (e2.data ++ (es2.map (fun x => entryRecord x ++ x.data)).flatten) e2
          hbl' hxl' h0' hsz'
        refine ⟨?_, ?_, ?_, ?_⟩
        · rw [hWa']
          exact r3.1
        · rw [hWa']
          exact r3.2.1
        · rw [hWa']
          exact r3.2.2
        · have hfl2 : (((e2 :: es2).map (fun x => entryRecord x ++ x.data)).flatten).length =
              16 + e2.size + ((es2.map (fun x => entryRecord x ++ x.data)).flatten).length := by
            simp [entryRecord_length, hdt']
            omega
          omega
    cases fuel with
    | zero =>
      simp only [List.length_cons] at hfuel
      omega
    | succ fuel =>
      obtain ⟨res, hloop, hmap, hinv⟩ := ih (pre ++ (entryRecord e ++ e.data))
        (pre ++ (entryRecord e ++ e.data)).length
        (acc ++ [⟨e.name, e.size, pre.length + 16, [], 0⟩]) fuel hWc
        (fun x hx => hall x (List.mem_cons_of_mem _ hx))
        (by simp only [List.length_cons] at hfuel; omega) hcur'
      refine ⟨⟨e.name, e.size, pre.length + 16, [], 0⟩ :: res, ?_, ?_, ?_⟩
      · rw [lfdLoop_step W fuel cur pre.length acc (by omega) (by omega)
          (by rw [hlen]; omega)]
        rw [hlen, hty, hnm, hjoin, hpre', hloop, List.append_assoc]
        rfl
      · simp only [List.map_cons]
        rw [hmap]
        congr 1
        show (e.name, e.size, bytesAt W (pre.length + 16) e.size) = sig e
        rw [hdata]
        rfl
      · intro r hr
        rcases List.mem_cons.mp hr with hr | hr
        · subst hr
          refine ⟨?_, rfl, rfl⟩
          show pre.length + 16 + e.size ≤ W.length
          omega
        · exact hinv r hr

/-- Decoding a freshly encoded LFD container succeeds with no entries lost:
the walked entries match the encoded ones in name, size and payload. -/
lemma lfdOpen_lfdWrite (es : List Entry)
    (hprops : ∀ e ∈ es, e.data.length = e.size ∧ e.size < 4294967296 ∧
      (baseOf e.name).length ≤ 8 ∧ (extOf e.name).length ≤ 4 ∧ 0 ∉ e.name ∧
      setExtName (baseOf e.name) (extOf e.name) = e.name)
    (hn : 16 * es.length < 4294967296) :
    ∃ res, lfdOpen (lfdWrite es) = some (true, ⟨res, false, false⟩) ∧
      res.map sig = es.map sig := by
  have hd : ∀ e ∈ es, e.data.length = e.size := fun e he => (hprops e he).1
  have hWlen := lfdWrite_length es hd
  have hHlen : (record16 [82, 77, 65, 80] [114, 101, 115, 111, 117, 114, 99, 101]
      (16 * es.length)).length = 16 := record16_length _ _ _
  have hDlen : ((es.map entryRecord).flatten).length = 16 * es.length := dirRecords_length es
  have hpre : (record16 [82, 77, 65, 80] [114, 101, 115, 111, 117, 114, 99, 101]
        (16 * es.length) ++ (es.map entryRecord).flatten).length = 16 * es.length + 16 := by
    rw [List.length_append, hHlen, hDlen]
    omega
  have hform : lfdWrite es =
      (record16 [82, 77, 65, 80] [114, 101, 115, 111, 117, 114, 99, 101] (16 * es.length) ++
        (es.map entryRecord).flatten) ++
        (es.map (fun x => entryRecord x ++ x.data)).flatten := by
    simp [lfdWrite, List.append_assoc]
  have hd12 : readU32 (lfdWrite es) 12 = 16 * es.length := by
    have hW2 : lfdWrite es = (padField 4 [82, 77, 65, 80] ++
        padField 8 [114, 101, 115, 111, 117, 114, 99, 101]) ++
        (w32 (16 * es.length) ++ ((es.map entryRecord).flatten ++
          (es.map (fun x => entryRecord x ++ x.data)).flatten)) := by
      simp [lfdWrite, record16, List.append_assoc]
    have hp12 : (padField 4 [82, 77, 65, 80] ++
        padField 8 [114, 101, 115, 111, 117, 114, 99, 101]).length = 12 := by
      rw [List.length_append, padField_length, padField_length]
    rw [hW2, ← hp12, readU32_middle]
    exact Nat.mod_eq_of_lt hn
  have hcur : ∀ e ∈ es.head?,
      cString (bytesAt (lfdWrite es) 16 4) = extOf e.name ∧
      cString (bytesAt (lfdWrite es) (16 + 4) 8) = baseOf e.name ∧
      readU32 (lfdWrite es) (16 + 12) = e.size ∧ 16 + 16 ≤ (lfdWrite es).length := by
    intro e' he'
    cases es with
    | nil => simp at he'
    | cons e es2 =>
      have he2 : e = e' := by simpa using he'
      subst he2
      obtain ⟨hdt, hsz, hbl, hxl, h0, hjoin⟩ := hprops e (List.mem_cons_self e es2)
      have hWa : lfdWrite (e :: es2) =
          record16 [82, 77, 65, 80] [114, 101, 115, 111, 117, 114, 99, 101]
            (16 * (e :: es2).length) ++ entryRecord e ++
          ((es2.map entryRecord).flatten ++
            ((e :: es2).map (fun x => entryRecord x ++ x.data)).flatten) := by
        simp [lfdWrite, List.append_assoc]
      have r3 := record_reads3
        (record16 [82, 77, 65, 80] [114, 101, 115, 111, 117, 114, 99, 101]
          (16 * (e :: es2).length))
        ((es2.map entryRecord).flatten ++
          ((e :: es2).map (fun x => entryRecord x ++ x.data)).flatten) e hbl hxl h0 hsz
      rw [record16_length] at r3
      have hl2 : (e :: es2).length = es2.length + 1 := by simp
      refine ⟨?_, ?_, ?_, ?_⟩
      · rw [hWa]
        exact r3.1
      · rw [hWa]
        exact r3.2.1
      · rw [hWa]
        exact r3.2.2
      · omega
  obtain ⟨res, hloop, hmap, hinv⟩ := lfdWalk (lfdWrite es) es
    (record16 [82, 77, 65, 80] [114, 101, 115, 111, 117, 114, 99, 101] (16 * es.length) ++
      (es.map entryRecord).flatten) 16 [] ((lfdWrite es).length + 1)
    hform hprops (by omega) hcur
  have hopen : lfdOpen (lfdWrite es) =
      some (true, ⟨detectPass (lfdWrite es) res, false, false⟩) := by
    simp only [lfdOpen]
    rw [if_neg (by omega), if_neg (by omega),
      if_neg (not_not_intro ⟨rfl, rfl, rfl, rfl⟩), hd12,
      if_neg (by push_neg; exact ⟨by omega, by omega⟩)]
    rw [show 16 * es.length + 16 =
      (record16 [82, 77, 65, 80] [114, 101, 115, 111, 117, 114, 99, 101] (16 * es.length) ++
        (es.map entryRecord).flatten).length from hpre.symm]
    rw [hloop]
    rfl
  refine ⟨detectPass (lfdWrite es) res, hopen, ?_⟩
  have hdet : detectPass (lfdWrite es) res =
      res.map (fun r =>
        { r with data := bytesAt (lfdWrite es) r.offset r.size, state := 0 }) := by
    exact detectGo_map (lfdWrite es) res []
      (fun r hr => ⟨(hinv r hr).1, fun _ => (hinv r hr).2.1⟩)
  rw [hdet, List.map_map]
  have hfun : (sig ∘ fun r : Entry =>
      { r with data := bytesAt (lfdWrite es) r.offset r.size, state := 0 }) =
      fun r : Entry => (r.name, r.size, bytesAt (lfdWrite es) r.offset r.size) :=
    funext fun r => rfl
  rw [hfun, hmap]

/-- C2, counterexample: decode-encode-decode is not the identity on decode's
image, even up to Entry order and offsets.  c2cbytes is a valid container
whose single record has the full 8-character name ABCDEFGH and the dotted
type field T.U: the decoded entry is named ABCDEFGH.T.U, re-encoding splits
that at its last dot into a 10-character base that is truncated to the 8-byte
name field, and the second decode returns an entry named ABCDEFGH.U. -/
theorem c2_counterexample :
    (lfdOpenEntries c2cbytes).bind
        (fun es => (lfdOpenEntries (lfdWrite es)).map (List.map sig)) ≠
      (lfdOpenEntries c2cbytes).map (List.map sig) := by
  decide

/-- C2 (amended): the LFD round trip decode-encode-decode reproduces the
decoded Entry tree (same names, sizes and payloads, offsets aside) for every
valid container whose decoded entry names survive the encoder's
split-into-base-and-extension: each name's base part must fit the 8-byte name
field, its extension the 4-byte type field, and re-joining the split parts
must give the name back (dotted type fields or overlong extensions lose the
excess, as the counterexample shows). -/
theorem c2_roundtrip :
    ∀ (mc : List Nat) (st : ArchState),
      (∀ x ∈ mc, x < 256) → mc.length < 4294967296 →
      lfdOpen mc = some (true, st) →
      (∀ e ∈ st.entries,
        (baseOf e.name).length ≤ 8 ∧ (extOf e.name).length ≤ 4 ∧ 0 ∉ e.name ∧
        setExtName (baseOf e.name) (extOf e.name) = e.name) →
      (lfdOpen (lfdWrite st.entries)).map (fun r => (r.1, r.2.entries.map sig)) =
        some (true, st.entries.map sig) := by
  intro mc st hb hlen h hnames
  rcases lfdOpen_cases h with ⟨hr, _⟩ | ⟨acc, _, _, hr, _⟩ | ⟨acc, hdir, hloop, _, hst⟩
  · exact Bool.noConfusion hr
  · exact Bool.noConfusion hr
  · subst hst
    have hbounds := lfdLoop_bounds mc _ _ _ _ _ _ hloop (by intro x hx; simp at hx)
    have hshape := lfdLoop_shape mc hb _ _ _ _ _ _ hloop (by intro x hx; simp at hx)
    have hdet : detectPass mc acc =
        acc.map (fun e => { e with data := bytesAt mc e.offset e.size, state := 0 }) :=
      detectGo_map mc acc [] (fun e he => ⟨(hbounds e he).2, fun _ => (hshape e he).2.1⟩)
    have hcount := lfdLoop_count mc _ _ _ _ _ _ hloop (by omega)
    simp only [List.length_nil] at hcount
    have hlength : (detectPass mc acc).length = acc.length := by
      rw [hdet, List.length_map]
    have hprops : ∀ e ∈ detectPass mc acc, e.data.length = e.size ∧
        e.size < 4294967296 ∧ (baseOf e.name).length ≤ 8 ∧ (extOf e.name).length ≤ 4 ∧
        0 ∉ e.name ∧ setExtName (baseOf e.name) (extOf e.name) = e.name := by
      intro e he
      obtain ⟨hn1, hn2, hn3, hn4⟩ := hnames e he
      rw [hdet] at he
      obtain ⟨a, ha, hae⟩ := List.mem_map.mp he
      subst hae
      refine ⟨?_, ?_, hn1, hn2, hn3, hn4⟩
      · show (bytesAt mc a.offset a.size).length = a.size
        exact bytesAt_length (hbounds a ha).2
      · show a.size < 4294967296
        exact (hshape a ha).1
    obtain ⟨res, hopen, hsig⟩ := lfdOpen_lfdWrite (detectPass mc acc) hprops (by omega)
    show (lfdOpen (lfdWrite (detectPass mc acc))).map (fun r => (r.1, r.2.entries.map sig)) =
      some (true, (detectPass mc acc).map sig)
    rw [hopen]
    simp only [Option.map_some']
    rw [← hsig]

theorem c2_witness :
    (lfdOpen (lfdWrite
        (⟨[⟨[65, 66, 46, 67], 2, 48, [7, 8], 0⟩], false, false⟩ : ArchState).entries)).map
        (fun r => (r.1, r.2.entries.map sig)) =
      some (true,
        (⟨[⟨[65, 66, 46, 67], 2, 48, [7, 8], 0⟩], false, false⟩ : ArchState).entries.map sig) :=
  c2_roundtrip c2wbytes ⟨[⟨[65, 66, 46, 67], 2, 48, [7, 8], 0⟩], false, false⟩
    (by decide) (by decide) (by decide) (by decide)
